import Mathlib

/-!
Shallow embedding of the Poker repository: the card and deck model
(src/src/models/Cards.js, src/src/models/Decks.js), the hand evaluator
(src/src/services/HandEvaluator.js), the dealing service
(src/src/services/DealService.js) and the betting orchestrator
(src/unnamed/part_002, the full GameService), together with proofs that
settle the claims C1 to C10.

Numbers: chip amounts are modelled as integers (JavaScript numbers used
with integer arithmetic throughout the source); card values are naturals
2..14, fully determined by the rank index as in createCard.
-/

open scoped List

/-- Card as built by createCard in src/src/models/Cards.js: a rank among
the 13 rank symbols and a suit among the 4 suit symbols.  The numeric
value is RANKS.indexOf(rank) + 2, hence determined by the rank index and
always between 2 and 14. -/
structure Card where
  rankIdx : Fin 13
  suit : Fin 4
  deriving DecidableEq, Repr, Inhabited

/-- Numeric value of a card (2 to 14), as assigned by createCard. -/
def Card.value (c : Card) : Nat := c.rankIdx.val + 2

theorem Card.value_le (c : Card) : c.value ≤ 14 := by
  have h := c.rankIdx.isLt
  unfold Card.value
  omega

/-- Error raised by dealCards when more cards are requested than remain. -/
inductive DealErr where
  | notEnoughCards
  deriving DecidableEq, Repr

/-- Deck as in src/src/models/Decks.js: an ordered card list plus the
remaining counter kept alongside it. -/
structure Deck where
  cards : List Card
  remaining : Nat
  deriving DecidableEq, Repr, Inhabited

/-- Embedding of dealCards (src/src/models/Decks.js lines 65-80): reject
the request when count exceeds the remaining counter, otherwise return
the first count cards and a new deck holding the rest, its remaining
field set to the length of the rest. -/
def dealCards (deck : Deck) (count : Nat) : Except DealErr (List Card × Deck) :=
  if count > deck.remaining then .error .notEnoughCards
  else
    let dealtCards := deck.cards.take count
    let remainingCards := deck.cards.drop count
    .ok (dealtCards, ⟨remainingCards, remainingCards.length⟩)

/-- C9: for every deck satisfying the deck invariant (remaining counter
equals the number of cards, maintained by every deck constructor in the
source) and every k at most the remaining count, dealCards succeeds and
returns exactly the first k cards together with a deck of the rest whose
remaining count is the old one minus k; for k above the remaining count
it fails with the not-enough-cards error, the input deck being untouched
(dealCards never mutates its argument, it only slices). -/
theorem c9_dealCards_spec :
    (∀ (d : Deck) (k : Nat), d.remaining = d.cards.length → k ≤ d.remaining →
      dealCards d k = .ok (d.cards.take k, ⟨d.cards.drop k, d.remaining - k⟩) ∧
      (d.cards.take k).length = k ∧ (d.cards.drop k).length = d.remaining - k) ∧
    (∀ (d : Deck) (k : Nat), k > d.remaining → dealCards d k = .error .notEnoughCards) := by
  constructor
  · intro d k hwf hk
    have hkc : k ≤ d.cards.length := hwf ▸ hk
    have hnot : ¬ (k > d.remaining) := not_lt.mpr hk
    refine ⟨?_, ?_, ?_⟩
    · simp only [dealCards, if_neg hnot]
      have hdrop : (d.cards.drop k).length = d.remaining - k := by
        simp [List.length_drop, hwf]
      simp [hdrop]
    · simp [List.length_take, Nat.min_eq_left hkc]
    · simp [List.length_drop, hwf]
  · intro d k hk
    simp [dealCards, hk]

/-- Witness for C9 at a concrete deck of two cards: dealing one card
succeeds with the stated shape, dealing three fails. -/
theorem c9_dealCards_spec_witness :
    dealCards ⟨[⟨0, (0 : Fin 4)⟩, ⟨5, (1 : Fin 4)⟩], 2⟩ 1 =
      .ok ([⟨0, (0 : Fin 4)⟩], ⟨[⟨5, (1 : Fin 4)⟩], 1⟩) ∧
    dealCards ⟨[⟨0, (0 : Fin 4)⟩, ⟨5, (1 : Fin 4)⟩], 2⟩ 3 = .error .notEnoughCards := by
  refine ⟨?_, c9_dealCards_spec.2 _ 3 (by decide)⟩
  have h := (c9_dealCards_spec.1 ⟨[⟨0, (0 : Fin 4)⟩, ⟨5, (1 : Fin 4)⟩], 2⟩ 1 rfl (by decide)).1
  simpa using h

/-! Hand evaluator (src/src/services/HandEvaluator.js).  The in-place
sorts of the source (isStraight, compareWithSameRank) are modelled here
by value: every consumer of the sorted array is embedded as reading the
sort result.  The aliasing behaviour of those in-place sorts is modelled
separately for claim C10 with an explicit array store. -/

/-- Stable insertion by ascending card value; building block of the
behaviour of the source comparator (a, b) => a.value - b.value under the
stable Array.prototype.sort. -/
def insertAscV (c : Card) : List Card → List Card
  | [] => [c]
  | d :: t => if d.value ≤ c.value then d :: insertAscV c t else c :: d :: t

/-- Stable ascending sort by card value, the value-level behaviour of
cards.sort(compareCardsRank). -/
def sortAscV (l : List Card) : List Card := l.foldl (fun acc c => insertAscV c acc) []

/-- Stable insertion by descending card value, for the comparator
(a, b) => b.value - a.value used in compareWithSameRank. -/
def insertDescV (c : Card) : List Card → List Card
  | [] => [c]
  | d :: t => if c.value ≤ d.value then d :: insertDescV c t else c :: d :: t

/-- Stable descending sort by card value. -/
def sortDescV (l : List Card) : List Card := l.foldl (fun acc c => insertDescV c acc) []

/-- Stable insertion by ascending natural number, used to express the
claim wording about the values sorted ascending. -/
def insertAscN (n : Nat) : List Nat → List Nat
  | [] => [n]
  | m :: t => if m ≤ n then m :: insertAscN n t else n :: m :: t

/-- Stable ascending sort of a list of naturals. -/
def sortAscN (l : List Nat) : List Nat := l.foldl (fun acc n => insertAscN n acc) []

/-- Consecutive-difference check of isStraight: every card after the
first has value exactly one above its predecessor, the subtraction taken
over the integers as in the source. -/
def diffsOne : List Card → Bool
  | a :: b :: t => (((b.value : Int) - (a.value : Int)) == 1) && diffsOne (b :: t)
  | _ => true

/-- Wheel check of isStraight: the sorted array reads 2, 3, 4, 5, 14 at
positions 0 to 4.  The source indexes positions 0 to 4 directly, so only
five-element arrays can pass. -/
def wheelCheck : List Card → Bool
  | [a, b, c, d, e] =>
      a.value == 2 && b.value == 3 && c.value == 4 && d.value == 5 && e.value == 14
  | _ => false

/-- Embedding of isStraight (HandEvaluator.js lines 366-385): sort
ascending by value, then consecutive differences of one, or the wheel. -/
def isStraightE (cards : List Card) : Bool :=
  let s := sortAscV cards
  diffsOne s || wheelCheck s

/-- Chain check of isFlush: every card shares the suit of its
predecessor, which holds exactly when all five suits agree. -/
def sameSuit : List Card → Bool
  | a :: b :: t => (a.suit == b.suit) && sameSuit (b :: t)
  | _ => true

/-- Embedding of isFlush (HandEvaluator.js lines 394-403). -/
def isFlushE (cards : List Card) : Bool := sameSuit cards

/-- Keys of the countByRank frequency object: the distinct card values
present, iterated in ascending numeric order as JavaScript orders
integer-like object keys.  Card values always lie below 15. -/
def keysOf (cards : List Card) : List Nat :=
  (List.range 15).filter (fun v => cards.any (fun c => c.value == v))

/-- Entry of the countByRank frequency object at a given value. -/
def cntV (cards : List Card) (v : Nat) : Nat :=
  cards.countP (fun c => c.value == v)

/-- Embedding of isOfKind (HandEvaluator.js lines 431-439): the maximum
frequency equals the target.  Math.max over the spread frequency values
is a fold over the counts in key order; the empty case (no cards) yields
0 here where the source yields negative infinity, equal behaviour for
the targets 3 and 4 used by getRank. -/
def isOfKindE (number : Nat) (cards : List Card) : Bool :=
  (((keysOf cards).map (cntV cards)).foldl max 0) == number

/-- Body of isFullHouse over the key list: reads the frequencies of the
first two keys only; with fewer than two keys the undefined lookups of
the source compare unequal and the result is false. -/
def fullHouseKeys (cards : List Card) : List Nat → Bool
  | k0 :: k1 :: _ =>
      (cntV cards k0 == 2 && cntV cards k1 == 3) ||
      (cntV cards k0 == 3 && cntV cards k1 == 2)
  | _ => false

/-- Embedding of isFullHouse (HandEvaluator.js lines 412-422). -/
def isFullHouseE (cards : List Card) : Bool :=
  fullHouseKeys cards (keysOf cards)

/-- Number of values occurring exactly twice, as computed by getRank via
Object.values(counts).filter(el => el === 2).length. -/
def pairsCountE (cards : List Card) : Nat :=
  ((keysOf cards).map (cntV cards)).countP (fun n => n == 2)

/-- Embedding of isFlushRoyal (HandEvaluator.js lines 450-457): positions
0 and 4 of the (already sorted) array hold values 10 and 14. -/
def isFlushRoyalE : List Card → Bool
  | [a, _, _, _, e] => a.value == 10 && e.value == 14
  | _ => false

/-- Embedding of getRank (HandEvaluator.js lines 313-355) applied to the
array after the in-place ascending sort performed by its isStraight
call; the frequency and flush checks are order-independent and
isFlushRoyal reads the sorted positions, so evaluating every check on
the sorted array is the behaviour of the source.  Ranks are the
HAND_RANKS ordinals 1 to 10. -/
def getRankOfSorted (s : List Card) : Nat :=
  let AreStraight := diffsOne s || wheelCheck s
  let AreFlush := sameSuit s
  if AreStraight && AreFlush && isFlushRoyalE s then 10
  else if AreStraight && AreFlush then 9
  else if isOfKindE 4 s then 8
  else if isFullHouseE s then 7
  else if AreFlush then 6
  else if AreStraight then 5
  else if isOfKindE 3 s then 4
  else if pairsCountE s == 2 then 3
  else if pairsCountE s == 1 then 2
  else 1

/-- Rank of a five-card array: getRank after the in-place sort done by
its first statement. -/
def getRankE (cards : List Card) : Nat := getRankOfSorted (sortAscV cards)

/-- First key of the frequency object whose count is exactly two, the
pair value located by comparePairs through Object.keys(...).find; keys
are visited in ascending numeric order. -/
def pairKeyE (cards : List Card) : Option Nat :=
  (keysOf cards).find? (fun v => cntV cards v == 2)

/-- Decision of comparePairs (HandEvaluator.js lines 94-109): some true
when the first hand wins, some false when the second wins, none for the
null fall-through.  When either hand lacks a pair the source compares
NaN, both comparisons are false and null is returned, matching none. -/
def comparePairsC (pairA pairB : List Card) : Option Bool :=
  match pairKeyE pairA, pairKeyE pairB with
  | some x, some y =>
      if x > y then some true else if y > x then some false else none
  | _, _ => none

/-- Keys with a given frequency, sorted descending: the source filters
the ascending keys and sorts with (a, b) => b - a, which reverses them. -/
def keysWithCntDesc (cards : List Card) (k : Nat) : List Nat :=
  ((keysOf cards).filter (fun v => cntV cards v == k)).reverse

/-- Comparison of two lists at one index as the source performs it on
possibly-missing elements: a missing element makes both strict
comparisons false, so none is returned and evaluation falls through. -/
def cmpAtIdx (xs ys : List Nat) (i : Nat) : Option Bool :=
  match xs.get? i, ys.get? i with
  | some x, some y =>
      if x > y then some true else if y > x then some false else none
  | _, _ => none

/-- Decision of compareTwoPairs (HandEvaluator.js lines 125-148): higher
pair first, then lower pair, none when fully tied. -/
def compareTwoPairsC (a b : List Card) : Option Bool :=
  match cmpAtIdx (keysWithCntDesc a 2) (keysWithCntDesc b 2) 0 with
  | some r => some r
  | none => cmpAtIdx (keysWithCntDesc a 2) (keysWithCntDesc b 2) 1

/-- Decision of compareThreeOfKind (HandEvaluator.js lines 160-175). -/
def compareThreeC (a b : List Card) : Option Bool :=
  cmpAtIdx (keysWithCntDesc a 3) (keysWithCntDesc b 3) 0

/-- Decision of compareFourOfKind (HandEvaluator.js lines 188-203). -/
def compareFourC (a b : List Card) : Option Bool :=
  cmpAtIdx (keysWithCntDesc a 4) (keysWithCntDesc b 4) 0

/-- Position-by-position walk of the kicker comparison at the end of
compareWithSameRank, over the two arrays sorted descending: true when
the new hand wins, false when the current best wins or on a full tie
(the source returns bestRank then). -/
def kickerWalk : List (Card × Card) → Bool
  | [] => false
  | (x, y) :: t =>
      if x.value > y.value then true
      else if y.value > x.value then false
      else kickerWalk t

/-- Decision of compareWithSameRank (HandEvaluator.js lines 218-268):
true exactly when the newRank array is returned.  The rank argument is
an Option because compareHands calls the function without it, in which
case none of the four rank-specific branches can match (undefined never
equals a HAND_RANKS constant) and only the kicker walk runs.  The two
in-place descending sorts of the source are modelled by sorting fresh
copies, which yields the same decision; their aliasing effect is treated
in the store model for claim C10. -/
def compareChoiceNew (newR bestR : List Card) (rank : Option Nat) : Bool :=
  let specific : Option Bool :=
    match rank with
    | some r =>
        if r == 2 then comparePairsC newR bestR
        else if r == 3 then compareTwoPairsC newR bestR
        else if r == 4 then compareThreeC newR bestR
        else if r == 8 then compareFourC newR bestR
        else none
    | none => none
  match specific with
  | some b => b
  | none => kickerWalk ((sortDescV newR).zip (sortDescV bestR))

/-- Value-level result of compareWithSameRank: the winning array. -/
def compareWithSameRankE (newR bestR : List Card) (rank : Option Nat) : List Card :=
  if compareChoiceNew newR bestR rank then newR else bestR

/-- Showdown entry as assembled in the showdown function of the game
service: the owning player (identified here by pid), the best five-card
hand and the evaluation rank. -/
structure Entry where
  pid : Nat
  bestHand : List Card
  rank : Nat
  deriving DecidableEq, Repr, Inhabited

/-- Stable insertion for the descending-by-rank sort of hands.sort((a, b)
=> b.evaluation.rank - a.evaluation.rank); an earlier entry stays in
front whenever its rank is at least the inserted one. -/
def insertEntryDesc (e : Entry) : List Entry → List Entry
  | [] => [e]
  | f :: t => if e.rank ≤ f.rank then f :: insertEntryDesc e t else e :: f :: t

/-- Stable descending sort of showdown entries by rank. -/
def sortEntriesDesc (l : List Entry) : List Entry :=
  l.foldl (fun acc e => insertEntryDesc e acc) []

/-- Runtime errors of compareHands: the TypeError raised by reducing an
empty array without an initial value, and by reading a property of
undefined. -/
inductive JsErr where
  | typeError
  deriving DecidableEq, Repr

/-- Decimal digit characters of a natural number, the string JavaScript
uses when an integer becomes an object key. -/
def decChars (n : Nat) : List Char := Nat.toDigits 10 n

/-- JavaScript string less-than: lexicographic comparison by code unit.
Digit characters compare by their codes, so the string 10 is below the
strings 2 to 9. -/
def jsStrLt : List Char → List Char → Bool
  | _, [] => false
  | [], _ :: _ => true
  | a :: as, b :: bs =>
      if a < b then true else if b < a then false else jsStrLt as bs

/-- Keys of the per-rank count object built inside compareHands: the
ranks present among the entries, in ascending numeric order. -/
def ranksPresent (hands : List Entry) : List Nat :=
  (List.range 11).filter (fun r => hands.any (fun h => h.rank == r))

/-- Count of entries carrying a given rank. -/
def cntRank (hands : List Entry) (r : Nat) : Nat :=
  hands.countP (fun h => h.rank == r)

/-- Embedding of Object.keys(count).reduce((a, b) => a > b ? a : b): the
keys are decimal strings compared by string order, so for example the
key 9 beats the key 10.  Reducing an empty array without an initial
value throws a TypeError. -/
def maxKeyOf (keys : List Nat) : Except JsErr Nat :=
  match keys with
  | [] => .error .typeError
  | k :: rest =>
      .ok (rest.foldl (fun a b => if jsStrLt (decChars b) (decChars a) then a else b) k)

/-- Embedding of compareHands (HandEvaluator.js lines 63-83).  The
winner defaults to the first entry of the rank-sorted list.  When the
count at the string-maximal key exceeds one, the same-rank entries are
folded with compareWithSameRank called without its rank argument; the
fold accumulator of the source starts as an entry but becomes a card
array after the first iteration, so a third same-rank entry makes the
source read bestHand of an array (undefined) and sort it, a TypeError.
The final hands.find locates the entry owning the winning array by
object identity, which is the tracked entry since every entry owns a
distinct array. -/
def compareHandsE (hands : List Entry) : Except JsErr Entry :=
  let sorted := sortEntriesDesc hands
  match maxKeyOf (ranksPresent hands) with
  | .error e => .error e
  | .ok maxKey =>
    match sorted with
    | [] => .error .typeError
    | w :: _ =>
      if cntRank hands maxKey > 1 then
        match sorted.filter (fun h => decChars h.rank == decChars maxKey) with
        | e0 :: e1 :: rest =>
          let best1 := if compareChoiceNew e1.bestHand e0.bestHand none then e1 else e0
          match rest with
          | [] => .ok best1
          | _ :: _ => .error .typeError
        | _ => .ok w
      else .ok w

deriving instance DecidableEq for Except

/-- Royal flush in spades: values 10 to 14. -/
def royalCards : List Card :=
  [⟨8, 0⟩, ⟨9, 0⟩, ⟨10, 0⟩, ⟨11, 0⟩, ⟨12, 0⟩]

/-- Straight flush 2 to 6 in hearts. -/
def sfTwoSix : List Card :=
  [⟨0, 1⟩, ⟨1, 1⟩, ⟨2, 1⟩, ⟨3, 1⟩, ⟨4, 1⟩]

/-- Straight flush 3 to 7 in diamonds. -/
def sfThreeSeven : List Card :=
  [⟨1, 2⟩, ⟨2, 2⟩, ⟨3, 2⟩, ⟨4, 2⟩, ⟨5, 2⟩]

/-- C6: refuted on the code.  With three showdown entries of ranks 10
(royal flush), 9 and 9 (two straight flushes), the maximal key of the
per-rank count object is computed by string comparison, so the key 9
beats the key 10; the count at 9 exceeds one, the tie-break therefore
runs among the two rank-9 entries only, and compareHands returns a
straight-flush entry although rank 10 is present, contradicting the
claim that the returned entry carries the maximum rank.  The first three
conjuncts check the three entries are honestly ranked by getRank. -/
theorem c6_compareHands_returns_lower_rank :
    getRankE royalCards = 10 ∧ getRankE sfTwoSix = 9 ∧ getRankE sfThreeSeven = 9 ∧
    compareHandsE [⟨1, royalCards, 10⟩, ⟨2, sfTwoSix, 9⟩, ⟨3, sfThreeSeven, 9⟩] =
      .ok ⟨3, sfThreeSeven, 9⟩ := by
  decide

/-! Claim C7: the straight classification.  The next definitions state
the claim wording (values sorted ascending differ by one consecutively,
or are exactly 2, 3, 4, 5, 14); the lemmas connect it to the embedded
getRank. -/

/-- Consecutive naturals check over a sorted value list, following the
claim wording: each value is exactly one above its predecessor. -/
def chainOneN : List Nat → Bool
  | a :: b :: t => (b == a + 1) && chainOneN (b :: t)
  | _ => true

/-- Straight condition as worded by the claim: the card values sorted
ascending differ by exactly one between consecutive positions, or are
exactly the wheel values 2, 3, 4, 5, 14. -/
def straightSpecB (cards : List Card) : Bool :=
  let vs := sortAscN (cards.map Card.value)
  chainOneN vs || (vs == [2, 3, 4, 5, 14])

theorem boolOfIff {a b : Bool} (h : a = true ↔ b = true) : a = b := by
  cases a <;> cases b <;> simp_all

theorem insertAscV_perm (c : Card) (l : List Card) : insertAscV c l ~ c :: l := by
  induction l with
  | nil => exact List.Perm.refl _
  | cons d t ih =>
    by_cases h : d.value ≤ c.value
    · simpa [insertAscV, h] using ((ih.cons d).trans (List.Perm.swap c d t))
    · simp [insertAscV, h]

theorem sortAscV_perm_aux (l acc : List Card) :
    l.foldl (fun acc c => insertAscV c acc) acc ~ acc ++ l := by
  induction l generalizing acc with
  | nil => simp
  | cons c t ih =>
    calc (c :: t).foldl (fun acc c => insertAscV c acc) acc
        = t.foldl (fun acc c => insertAscV c acc) (insertAscV c acc) := rfl
      _ ~ insertAscV c acc ++ t := ih _
      _ ~ (c :: acc) ++ t := (insertAscV_perm c acc).append_right t
      _ ~ acc ++ c :: t := List.perm_middle.symm

theorem sortAscV_perm (l : List Card) : sortAscV l ~ l := by
  simpa using sortAscV_perm_aux l []

theorem insertAscN_perm (n : Nat) (l : List Nat) : insertAscN n l ~ n :: l := by
  induction l with
  | nil => exact List.Perm.refl _
  | cons m t ih =>
    by_cases h : m ≤ n
    · simpa [insertAscN, h] using ((ih.cons m).trans (List.Perm.swap n m t))
    · simp [insertAscN, h]

theorem sortAscN_perm_aux (l acc : List Nat) :
    l.foldl (fun acc n => insertAscN n acc) acc ~ acc ++ l := by
  induction l generalizing acc with
  | nil => simp
  | cons n t ih =>
    calc (n :: t).foldl (fun acc n => insertAscN n acc) acc
        = t.foldl (fun acc n => insertAscN n acc) (insertAscN n acc) := rfl
      _ ~ insertAscN n acc ++ t := ih _
      _ ~ (n :: acc) ++ t := (insertAscN_perm n acc).append_right t
      _ ~ acc ++ n :: t := List.perm_middle.symm

theorem sortAscN_perm (l : List Nat) : sortAscN l ~ l := by
  simpa using sortAscN_perm_aux l []

theorem insertAscV_sorted (c : Card) (l : List Card)
    (h : l.Sorted (fun a b : Card => a.value ≤ b.value)) :
    (insertAscV c l).Sorted (fun a b : Card => a.value ≤ b.value) := by
  induction l with
  | nil => simp [insertAscV]
  | cons d t ih =>
    rw [List.sorted_cons] at h
    by_cases hd : d.value ≤ c.value
    · rw [insertAscV, if_pos hd, List.sorted_cons]
      refine ⟨?_, ih h.2⟩
      intro b hb
      have hmem := (insertAscV_perm c t).subset hb
      rcases List.mem_cons.mp hmem with hb' | hb'
      · exact hb' ▸ hd
      · exact h.1 b hb'
    · rw [insertAscV, if_neg hd, List.sorted_cons]
      push_neg at hd
      refine ⟨?_, List.sorted_cons.mpr h⟩
      intro b hb
      rcases List.mem_cons.mp hb with hb' | hb'
      · exact hb' ▸ Nat.le_of_lt hd
      · exact Nat.le_trans (Nat.le_of_lt hd) (h.1 b hb')

theorem sortAscV_sorted_aux (l acc : List Card)
    (hacc : acc.Sorted (fun a b : Card => a.value ≤ b.value)) :
    (l.foldl (fun acc c => insertAscV c acc) acc).Sorted
      (fun a b : Card => a.value ≤ b.value) := by
  induction l generalizing acc with
  | nil => exact hacc
  | cons c t ih => exact ih _ (insertAscV_sorted c acc hacc)

theorem sortAscV_sorted (l : List Card) :
    (sortAscV l).Sorted (fun a b : Card => a.value ≤ b.value) :=
  sortAscV_sorted_aux l [] (by simp)

theorem insertAscN_sorted (n : Nat) (l : List Nat) (h : l.Sorted (· ≤ ·)) :
    (insertAscN n l).Sorted (· ≤ ·) := by
  induction l with
  | nil => simp [insertAscN]
  | cons m t ih =>
    rw [List.sorted_cons] at h
    by_cases hm : m ≤ n
    · rw [insertAscN, if_pos hm, List.sorted_cons]
      refine ⟨?_, ih h.2⟩
      intro b hb
      have hmem := (insertAscN_perm n t).subset hb
      rcases List.mem_cons.mp hmem with hb' | hb'
      · exact hb' ▸ hm
      · exact h.1 b hb'
    · rw [insertAscN, if_neg hm, List.sorted_cons]
      push_neg at hm
      refine ⟨?_, List.sorted_cons.mpr h⟩
      intro b hb
      rcases List.mem_cons.mp hb with hb' | hb'
      · exact hb' ▸ Nat.le_of_lt hm
      · exact Nat.le_trans (Nat.le_of_lt hm) (h.1 b hb')

theorem sortAscN_sorted_aux (l acc : List Nat) (hacc : acc.Sorted (· ≤ ·)) :
    (l.foldl (fun acc n => insertAscN n acc) acc).Sorted (· ≤ ·) := by
  induction l generalizing acc with
  | nil => exact hacc
  | cons n t ih => exact ih _ (insertAscN_sorted n acc hacc)

theorem sortAscN_sorted (l : List Nat) : (sortAscN l).Sorted (· ≤ ·) :=
  sortAscN_sorted_aux l [] (by simp)

/-- The value list of the card sort equals the natural-number sort of the
value list: both are sorted permutations of the same list. -/
theorem map_value_sortAscV (cards : List Card) :
    (sortAscV cards).map Card.value = sortAscN (cards.map Card.value) := by
  apply List.eq_of_perm_of_sorted (r := (· ≤ · : Nat → Nat → Prop))
  · exact ((sortAscV_perm cards).map Card.value).trans (sortAscN_perm _).symm
  · exact List.Pairwise.map Card.value (fun a b h => h) (sortAscV_sorted cards)
  · exact sortAscN_sorted _

/-- Characterisation of the chained suit check: it holds exactly when all
cards in the list share one suit. -/
theorem sameSuit_iff (l : List Card) :
    sameSuit l = true ↔ ∀ a ∈ l, ∀ b ∈ l, a.suit = b.suit := by
  induction l with
  | nil => simp [sameSuit]
  | cons a t ih =>
    cases t with
    | nil => simp [sameSuit]
    | cons b u =>
      rw [sameSuit, Bool.and_eq_true, beq_iff_eq, ih]
      constructor
      · rintro ⟨hab, hrest⟩
        have key : ∀ x ∈ a :: b :: u, x.suit = b.suit := by
          intro x hx
          rcases List.mem_cons.mp hx with hx' | hx'
          · exact hx' ▸ hab
          · exact hrest x hx' b (List.mem_cons_self b u)
        intro x hx y hy
        exact (key x hx).trans (key y hy).symm
      · intro h
        refine ⟨h a (List.mem_cons_self a _) b (List.mem_cons_of_mem a (List.mem_cons_self b u)), ?_⟩
        intro x hx y hy
        exact h x (List.mem_cons_of_mem a hx) y (List.mem_cons_of_mem a hy)

/-- The chained suit check is invariant under permutation. -/
theorem sameSuit_perm {l l' : List Card} (h : List.Perm l l') :
    sameSuit l = sameSuit l' := by
  apply boolOfIff
  rw [sameSuit_iff, sameSuit_iff]
  constructor
  · intro hp a ha b hb
    exact hp a (h.symm.subset ha) b (h.symm.subset hb)
  · intro hp a ha b hb
    exact hp a (h.subset ha) b (h.subset hb)

/-- The consecutive-difference check over the integers coincides with the
natural-number successor check performed on the value list. -/
theorem diffsOne_eq_chain : ∀ l : List Card, diffsOne l = chainOneN (l.map Card.value)
  | [] => rfl
  | [_] => rfl
  | a :: b :: t => by
    rw [diffsOne, List.map_cons, List.map_cons, chainOneN]
    have h1 : (((b.value : Int) - (a.value : Int)) == 1) = (b.value == a.value + 1) := by
      rcases eq_or_ne b.value (a.value + 1) with h | h
      · rw [h]
        have : ((a.value + 1 : Nat) : Int) - (a.value : Int) = 1 := by push_cast; ring
        simp [this]
      · have h2 : ((b.value : Int) - (a.value : Int)) ≠ 1 := by omega
        rw [beq_eq_false_iff_ne.mpr h2, beq_eq_false_iff_ne.mpr h]
    rw [h1, diffsOne_eq_chain (b :: t), List.map_cons]

/-- The positional wheel check coincides with equality of the value list
with the wheel values. -/
theorem wheelCheck_eq : ∀ l : List Card,
    wheelCheck l = (l.map Card.value == [2, 3, 4, 5, 14])
  | [] => rfl
  | [_] => by apply boolOfIff; simp [wheelCheck]
  | [_, _] => by apply boolOfIff; simp [wheelCheck]
  | [_, _, _] => by apply boolOfIff; simp [wheelCheck]
  | [_, _, _, _] => by apply boolOfIff; simp [wheelCheck]
  | [a, b, c, d, e] => by
    apply boolOfIff
    rw [wheelCheck]
    simp only [List.map_cons, List.map_nil, Bool.and_eq_true, beq_iff_eq, List.cons.injEq,
      and_true]
    tauto
  | _ :: _ :: _ :: _ :: _ :: _ :: _ => by
    apply boolOfIff
    simp [wheelCheck]

/-- The straight test of the source, evaluated on the sorted array,
coincides with the claim wording applied to the raw card list. -/
theorem straight_eq_spec (cards : List Card) :
    (diffsOne (sortAscV cards) || wheelCheck (sortAscV cards)) = straightSpecB cards := by
  rw [straightSpecB, diffsOne_eq_chain, wheelCheck_eq, map_value_sortAscV]

/-- A successful consecutive-difference check means the list is strictly
increasing. -/
theorem chainOneN_chain_lt : ∀ {l : List Nat}, chainOneN l = true → l.Chain' (· < ·) := by
  intro l
  induction l with
  | nil => intro _; simp
  | cons a t ih =>
    cases t with
    | nil => intro _; simp
    | cons b u =>
      rw [chainOneN, Bool.and_eq_true, beq_iff_eq]
      rintro ⟨hab, hrest⟩
      rw [List.chain'_cons]
      exact ⟨by omega, ih hrest⟩

/-- The straight condition forces all five values to be distinct. -/
theorem straightSpecB_nodup {cards : List Card} (h : straightSpecB cards = true) :
    (cards.map Card.value).Nodup := by
  have hperm := sortAscN_perm (cards.map Card.value)
  rw [straightSpecB, Bool.or_eq_true, beq_iff_eq] at h
  have hnd : (sortAscN (cards.map Card.value)).Nodup := by
    rcases h with h | h
    · have hch := chainOneN_chain_lt h
      have hpw := List.chain'_iff_pairwise.mp hch
      exact hpw.imp Nat.ne_of_lt
    · rw [h]; decide
  exact hperm.nodup_iff.mp hnd

/-- Frequency entries as counts over the mapped value list. -/
theorem cntV_eq_count (cards : List Card) (v : Nat) :
    cntV cards v = (cards.map Card.value).count v := by
  rw [cntV, List.count_eq_countP, List.countP_map]
  rfl

/-- With pairwise distinct values, every frequency entry is at most one. -/
theorem cntV_le_one {cards : List Card} (h : (cards.map Card.value).Nodup) (v : Nat) :
    cntV cards v ≤ 1 := by
  rw [cntV_eq_count]
  exact List.nodup_iff_count_le_one.mp h v

/-- Frequencies are invariant under permutation of the cards. -/
theorem cntV_perm {l l' : List Card} (h : List.Perm l l') (v : Nat) :
    cntV l v = cntV l' v :=
  h.countP_eq _

/-- A fold of max over a list of values at most one stays at most one. -/
theorem foldl_max_le_one_aux {l : List Nat} (a : Nat) (ha : a ≤ 1)
    (h : ∀ x ∈ l, x ≤ 1) : l.foldl max a ≤ 1 := by
  induction l generalizing a with
  | nil => exact ha
  | cons x t ih =>
    rw [List.foldl_cons]
    exact ih _ (Nat.max_le.mpr ⟨ha, h x (List.mem_cons_self x t)⟩)
      (fun y hy => h y (List.mem_cons_of_mem x hy))

/-- C7, amended: the isStraight test of the source returns true exactly
under the claim condition (consecutive sorted values or the wheel), and
getRank classifies a five-card hand as a Straight (ordinal 5) exactly
when that condition holds and the hand is not a flush; a straight that
is also a flush is classified higher (straight or royal flush), which is
the one correction the counterexample forces. -/
theorem c7_getRank_straight_iff (cards : List Card) (_h5 : cards.length = 5) :
    isStraightE cards = straightSpecB cards ∧
    (getRankE cards = 5 ↔ (straightSpecB cards = true ∧ isFlushE cards = false)) := by
  have hstr : (diffsOne (sortAscV cards) || wheelCheck (sortAscV cards)) = straightSpecB cards :=
    straight_eq_spec cards
  have hfl : sameSuit (sortAscV cards) = sameSuit cards :=
    sameSuit_perm (sortAscV_perm cards)
  refine ⟨hstr, ?_⟩
  rw [getRankE, getRankOfSorted]
  constructor
  · intro h
    split_ifs at h with g1 g2 g3 g4 g5 g6 g7 g8 g9 <;> try omega
    refine ⟨by rw [← hstr]; exact g6, ?_⟩
    rw [isFlushE, ← hfl]
    rcases Bool.eq_false_or_eq_true (sameSuit (sortAscV cards)) with hF | hF
    · exact absurd hF g5
    · exact hF
  · rintro ⟨hspec, hnf⟩
    have hA : (diffsOne (sortAscV cards) || wheelCheck (sortAscV cards)) = true := by
      rw [hstr]; exact hspec
    have hF : sameSuit (sortAscV cards) = false := by
      rw [hfl]; exact hnf
    have hnd : ((sortAscV cards).map Card.value).Nodup := by
      have h1 := straightSpecB_nodup hspec
      exact (((sortAscV_perm cards).map Card.value).nodup_iff).mpr h1
    have hcnt : ∀ v, cntV (sortAscV cards) v ≤ 1 := fun v => cntV_le_one hnd v
    have h4 : isOfKindE 4 (sortAscV cards) = false := by
      rw [isOfKindE]
      have hle : ((keysOf (sortAscV cards)).map (cntV (sortAscV cards))).foldl max 0 ≤ 1 := by
        apply foldl_max_le_one_aux 0 (by omega)
        intro x hx
        rcases List.mem_map.mp hx with ⟨v, _, hv⟩
        exact hv ▸ hcnt v
      exact beq_eq_false_iff_ne.mpr (by omega)
    have hfh : isFullHouseE (sortAscV cards) = false := by
      rw [isFullHouseE]
      cases hk : keysOf (sortAscV cards) with
      | nil => rfl
      | cons k0 rest =>
        cases rest with
        | nil => rfl
        | cons k1 r2 =>
          have h0 := hcnt k0
          have h2 : (cntV (sortAscV cards) k0 == 2) = false := beq_eq_false_iff_ne.mpr (by omega)
          have h3 : (cntV (sortAscV cards) k0 == 3) = false := beq_eq_false_iff_ne.mpr (by omega)
          rw [fullHouseKeys, h2, h3]
          simp
    rw [hA, hF, h4, hfh]
    simp

/-- Witness for C7 at the wheel fixture of the claim (ace of spades, two
of hearts, three of diamonds, four of clubs, five of spades): the hand is
classified as a Straight. -/
theorem c7_getRank_straight_iff_witness :
    getRankE [⟨12, 0⟩, ⟨0, 1⟩, ⟨1, 2⟩, ⟨2, 3⟩, ⟨3, 0⟩] = 5 :=
  (c7_getRank_straight_iff [⟨12, 0⟩, ⟨0, 1⟩, ⟨1, 2⟩, ⟨2, 3⟩, ⟨3, 0⟩] rfl).2.mpr (by decide)

/-- C7, counterexample: the straight flush two to six of hearts meets the
claim condition on sorted values, yet getRank does not classify it as a
Straight (it returns the straight-flush ordinal 9), so the biconditional
of the claim fails as stated. -/
theorem c7_claim_counterexample :
    ¬ (getRankE sfTwoSix = 5 ↔ straightSpecB sfTwoSix = true) ∧ getRankE sfTwoSix = 9 := by
  constructor
  · intro h
    have := h.mpr (by decide)
    revert this
    decide
  · decide

/-! Player model (src/unnamed/part_000, the Players.js module) and the
betting orchestrator (src/unnamed/part_002, the full GameService).

Every player-constructing function of Players.js (createPlayer,
giveCard, placeBet, fold, resetForNewHand, addWiningMoney) returns an
Object.freeze d object, while the map at the end of bettingRound and the
pot-award spreads build plain objects; the frozen field records this.
The source files are ES modules, hence strict mode: an assignment to a
property of a frozen object throws a TypeError, which is exactly what
the statement player.isInAllIn = true inside placeBet does when the
incoming player object is frozen. -/

/-- Player object of Players.js.  The hand holds lists of cards because
giveCard appends whatever its first argument is, and dealPlayers passes
it the dealtCards array of dealCards(deck, 1). -/
structure Player where
  id : Nat
  chips : Int
  currentBet : Int
  hasFolded : Bool
  isInAllIn : Bool
  hand : List (List Card)
  frozen : Bool
  deriving DecidableEq, Repr, Inhabited

/-- Errors of the player operations: the two Error throws documented in
placeBet and fold, the strict-mode TypeError of the frozen all-in write,
and the TypeError of reading a property of undefined in the re-add loop
of bettingRound. -/
inductive BetErr where
  | alreadyFolded
  | notEnoughChips
  | frozenWrite
  | playerNotFound
  deriving DecidableEq, Repr

/-- Embedding of placeBet (Players.js lines 44-62): reject a folded
player, then an amount above the stack; when the amount equals the whole
stack the source assigns player.isInAllIn = true, which on a frozen
player object throws a TypeError in strict mode, and on an unfrozen one
succeeds, the flag being copied into the returned (frozen) object. -/
def placeBet (player : Player) (amount : Int) : Except BetErr Player :=
  if player.hasFolded then .error .alreadyFolded
  else if amount > player.chips then .error .notEnoughChips
  else if player.chips == amount && player.frozen then .error .frozenWrite
  else
    .ok { player with
          chips := player.chips - amount,
          isInAllIn := if player.chips == amount then true else player.isInAllIn,
          currentBet := player.currentBet + amount,
          frozen := true }

/-- Embedding of fold (Players.js lines 71-81). -/
def fold (player : Player) : Except BetErr Player :=
  if player.hasFolded then .error .alreadyFolded
  else .ok { player with hasFolded := true, frozen := true }

/-- Embedding of call (Players.js lines 89-93): bet the difference
between the table bet to match and the player's own contribution. -/
def call (player : Player) (currentCall : Int) : Except BetErr Player :=
  placeBet player (currentCall - player.currentBet)

/-- Embedding of raise (Players.js lines 102-106): bet the difference
between the raise target and the player's own contribution. -/
def raise (player : Player) (amount : Int) : Except BetErr Player :=
  placeBet player (amount - player.currentBet)

/-- Embedding of giveCard (Players.js lines 29-34): append the given
argument as one element of the hand. -/
def giveCard (card : List Card) (player : Player) : Player :=
  { player with hand := player.hand ++ [card], frozen := true }

/-- Embedding of getActivePlayers (Players.js lines 144-147): the
players whose hasFolded flag is unset; all-in players stay active. -/
def getActivePlayers (players : List Player) : List Player :=
  players.filter (fun p => !p.hasFolded)

/-- Game state of the GameService: the fields read or written by the
functions modelled here.  The phase string, delays and readline handle
are presentation data with no effect on these computations. -/
structure GameState where
  players : List Player
  deck : Deck
  pot : Int
  currentBet : Int
  bigBlindPos : Nat
  smallBlindPos : Nat
  smallBlind : Int
  bigBlind : Int
  deriving DecidableEq, Repr, Inhabited

/-- Actions delivered by the action-request collaborators. -/
inductive ActionT where
  | fold
  | check
  | call (amount : Int)
  | raise (amount : Int)
  deriving DecidableEq, Repr

/-- Raise discriminator, as the action.type === raise test. -/
def ActionT.isRaise : ActionT → Bool
  | .raise _ => true
  | _ => false

/-- Embedding of processAction (GameService lines 342-362).  In each arm
the player operation is evaluated before any assignment to the game, so
a throw propagates with the game untouched: the error carries the state
as it stands at the moment of failure.  The call arm adds the amount
carried by the action to the pot; the raise arm adds the target minus
the acting player's previous contribution (read from the stale player
binding, which placeBet never updates) and sets the table bet to the
target. -/
def processAction (game : GameState) (player : Player) (action : ActionT)
    (playerIdx : Nat) : Except (BetErr × GameState) GameState :=
  match action with
  | .fold =>
      match fold player with
      | .error e => .error (e, game)
      | .ok p => .ok { game with players := game.players.set playerIdx p }
  | .check => .ok game
  | .call amount =>
      match call player game.currentBet with
      | .error e => .error (e, game)
      | .ok p => .ok { game with
                       players := game.players.set playerIdx p
                       pot := game.pot + amount }
  | .raise amount =>
      match raise player amount with
      | .error e => .error (e, game)
      | .ok p => .ok { game with
                       players := game.players.set playerIdx p
                       pot := game.pot + (amount - player.currentBet)
                       currentBet := amount }

/-- Skip test of bettingRound line 294: the source reads player.folded,
a property that does not exist on player objects (they carry hasFolded),
so the read yields undefined, which is falsy. -/
def jsFolded (_player : Player) : Bool := false

/-- Skip test of bettingRound line 294: the source reads player.allIn,
a property that does not exist on player objects (they carry isInAllIn),
so the read yields undefined, which is falsy. -/
def jsAllIn (_player : Player) : Bool := false

/-- One step of the re-add loop after a raise (bettingRound lines
310-315): the snapshot id is looked up in the current players array; the
raiser is excluded before the lookup result is dereferenced (the &&
short-circuits on p.id !== player.id), and a failed lookup would
dereference undefined. -/
def reAddOne (gamePlayers : List Player) (raiserId : Nat) (s : Finset Nat)
    (pid : Nat) : Except BetErr (Finset Nat) :=
  if pid == raiserId then .ok s
  else
    match gamePlayers.find? (fun pl => pl.id == pid) with
    | none => .error .playerNotFound
    | some pl => .ok (if !pl.hasFolded && !pl.isInAllIn then insert pid s else s)

/-- The full re-add loop over the phase-start snapshot of active ids,
one forEach step at a time. -/
def reAddAll (gamePlayers : List Player) (raiserId : Nat) :
    List Nat → Finset Nat → Except BetErr (Finset Nat)
  | [], s => .ok s
  | pid :: rest, s =>
    match reAddOne gamePlayers raiserId s pid with
    | .error e => .error e
    | .ok s2 => reAddAll gamePlayers raiserId rest s2

/-- Observable outcome of one iteration of the bettingRound while loop:
the updated game, the pending-action set, the next seat index, the id of
the player an action was requested from (none when the seat was
skipped), and whether the loop breaks because at most one active player
remains. -/
structure StepOut where
  state : GameState
  toAct : Finset Nat
  nextIdx : Nat
  asked : Option Nat
  brk : Bool
  deriving DecidableEq

/-- One iteration of the bettingRound while loop (GameService lines
291-322).  The seat player is read at the current index; the skip test
reads the nonexistent folded and allIn properties; otherwise an action
is requested from the seat player (recorded in asked) and processed, the
player's id is removed from the pending set, and after a raise the
re-add loop runs over the phase-start snapshot of active ids against the
updated players array. -/
def bettingStep (game : GameState) (playersToAct : Finset Nat) (activeIds : List Nat)
    (currentIdx : Nat) (action : ActionT) : Except (BetErr × GameState) StepOut :=
  let n := game.players.length
  let player := game.players.getD currentIdx default
  if jsFolded player || jsAllIn player then
    .ok ⟨game, playersToAct, (currentIdx + 1) % n, none, false⟩
  else
    match processAction game player action currentIdx with
    | .error e => .error e
    | .ok g1 =>
      let t1 := playersToAct.erase player.id
      match (if action.isRaise then reAddAll g1.players player.id activeIds t1
             else .ok t1) with
      | .error e => .error (e, g1)
      | .ok t2 =>
          .ok ⟨g1, t2, (currentIdx + 1) % n, some player.id,
               decide ((getActivePlayers g1.players).length ≤ 1)⟩

/-- Embedding of blindBet (GameService lines 375-386): the big blind is
placed first, then the small blind against the already-updated players
array; both go through placeBet and its checks (the TODO comment of the
source notwithstanding), then the pot is assigned smallBlind plus
bigBlind and the table bet is assigned bigBlind.  A throw propagates
with the state as mutated so far. -/
def blindBet (game : GameState) : Except (BetErr × GameState) GameState :=
  match placeBet (game.players.getD game.bigBlindPos default) game.bigBlind with
  | .error e => .error (e, game)
  | .ok bb =>
    let g1 := { game with players := game.players.set game.bigBlindPos bb }
    match placeBet (g1.players.getD game.smallBlindPos default) game.smallBlind with
    | .error e => .error (e, g1)
    | .ok sb =>
      let g2 := { g1 with players := g1.players.set game.smallBlindPos sb }
      .ok { g2 with
            pot := game.smallBlind + game.bigBlind
            currentBet := game.bigBlind }

/-- One pass of dealPlayers (DealService lines 20-36): each player in
order receives the dealtCards array of a one-card deal.  The source
iterates the live array replacing the entry found by indexOf; since
every player object is distinct, that index is the iteration index and
the pass is a deal-and-replace in list order. -/
def dealPass : List Player → Deck → Except DealErr (List Player × Deck)
  | [], d => .ok ([], d)
  | p :: rest, d =>
    match dealCards d 1 with
    | .error e => .error e
    | .ok (cs, d1) =>
      match dealPass rest d1 with
      | .error e => .error e
      | .ok (rest2, d2) => .ok (giveCard cs p :: rest2, d2)

/-- Embedding of dealPlayers (DealService lines 18-37): two passes over
the players. -/
def dealPlayers (game : GameState) : Except DealErr GameState :=
  match dealPass game.players game.deck with
  | .error e => .error e
  | .ok (ps1, d1) =>
    match dealPass ps1 d1 with
    | .error e => .error e
    | .ok (ps2, d2) => .ok { game with players := ps2, deck := d2 }

/-- placeBet fails whenever the requested amount exceeds the stack: the
folded check may fire first, but an error is thrown either way. -/
theorem placeBet_err {p : Player} {amount : Int} (h : amount > p.chips) :
    ∃ e, placeBet p amount = .error e := by
  rw [placeBet]
  by_cases hf : p.hasFolded = true
  · exact ⟨.alreadyFolded, by simp [hf]⟩
  · exact ⟨.notEnoughChips, by simp [hf, h]⟩

/-- placeBet succeeds with the plain chip and bet updates whenever the
player has not folded and the amount is strictly below the stack (the
all-in write is then not executed). -/
theorem placeBet_ok {p : Player} {amount : Int} (hf : p.hasFolded = false)
    (hlt : amount < p.chips) :
    placeBet p amount = .ok { p with
      chips := p.chips - amount
      currentBet := p.currentBet + amount
      frozen := true } := by
  rw [placeBet]
  have h1 : ¬ (amount > p.chips) := by omega
  have h2 : (p.chips == amount) = false := beq_eq_false_iff_ne.mpr (by omega)
  simp [hf, h1, h2]

/-- C3: refuted on the code as an all-in call crashes on frozen player
objects.  A non-folded player with 20 chips and no contribution, facing
a table bet of 20, calls all-in: on the frozen object produced by every
Players.js constructor (the state during blinds and pre-flop) the
strict-mode write player.isInAllIn = true inside placeBet throws a
TypeError instead of succeeding; on a plain (unfrozen) object, as
rebuilt between betting rounds, the call succeeds with the stack
emptied, the bet increased and the all-in flag set, which is the
behaviour the claim describes. -/
theorem c3_allin_call_frozen_crash :
    call ⟨7, 20, 0, false, false, [], true⟩ 20 = .error .frozenWrite ∧
    call ⟨7, 20, 0, false, false, [], false⟩ 20 = .ok ⟨7, 0, 20, false, true, [], true⟩ := by
  constructor <;> rfl

/-- C4: an action demanding more chips than the player holds fails inside
placeBet before any assignment to the game object, so the error carries
the game state exactly as it was: stack, per-phase bet, flags, pot and
table bet unchanged.  For a call the required amount is the table bet
minus the player's contribution; for a raise it is the raise target
minus the player's contribution. -/
theorem c4_invalid_action_atomic (game : GameState) (player : Player)
    (playerIdx : Nat) (amount : Int) :
    (game.currentBet - player.currentBet > player.chips →
      ∃ e, processAction game player (.call amount) playerIdx = .error (e, game)) ∧
    (amount - player.currentBet > player.chips →
      ∃ e, processAction game player (.raise amount) playerIdx = .error (e, game)) := by
  constructor
  · intro h
    obtain ⟨e, he⟩ := placeBet_err h
    exact ⟨e, by simp [processAction, call, he]⟩
  · intro h
    obtain ⟨e, he⟩ := placeBet_err h
    exact ⟨e, by simp [processAction, raise, he]⟩

/-- Player with a poor stack used by the C4 witness. -/
def poorPlayer : Player := ⟨3, 10, 0, false, false, [], true⟩

/-- Game used by the C4 witness: the table bet is 50 against a stack of
10. -/
def gameC4 : GameState := ⟨[poorPlayer], ⟨[], 0⟩, 0, 50, 0, 0, 10, 20⟩

/-- Witness for C4: the poor player cannot call 50 nor raise to 100, and
both failures carry the untouched game state. -/
theorem c4_invalid_action_atomic_witness :
    (∃ e, processAction gameC4 poorPlayer (.call 100) 0 = .error (e, gameC4)) ∧
    (∃ e, processAction gameC4 poorPlayer (.raise 100) 0 = .error (e, gameC4)) :=
  ⟨(c4_invalid_action_atomic gameC4 poorPlayer 0 100).1 (by decide),
   (c4_invalid_action_atomic gameC4 poorPlayer 0 100).2 (by decide)⟩

/-- Small blind player of the C5 counterexample. -/
def sbRich : Player := ⟨0, 1000, 0, false, false, [], true⟩

/-- Big blind player of the C5 counterexample: 5 chips, below the big
blind of 20. -/
def bbBroke : Player := ⟨1, 5, 0, false, false, [], true⟩

/-- Game of the C5 counterexample. -/
def gameC5 : GameState := ⟨[sbRich, bbBroke], ⟨[], 0⟩, 0, 0, 1, 0, 10, 20⟩

/-- C5: refuted on the code.  blindBet itself performs no stack check
(the TODO of the source), but it posts the blinds through placeBet,
which does validate: a big-blind player holding 5 chips against a big
blind of 20 makes blindBet throw the not-enough-chips error before the
pot or the table bet are touched, contradicting the claim that blind
posting always succeeds even when the chip count is at most the blind. -/
theorem c5_blindBet_claim_counterexample :
    bbBroke.chips ≤ gameC5.bigBlind ∧
    blindBet gameC5 = .error (.notEnoughChips, gameC5) := by
  exact ⟨by decide, rfl⟩

/-- Reading an index other than the one just set is unchanged. -/
theorem getD_set_ne {α : Type} {l : List α} {i j : Nat} (h : i ≠ j) (a d : α) :
    (l.set i a).getD j d = l.getD j d := by
  simp [List.getD_eq_getElem?_getD, List.getElem?_set_ne h]

/-- Reading the index just set yields the new element when in bounds. -/
theorem getD_set_self {α : Type} {l : List α} {i : Nat} (hi : i < l.length) (a d : α) :
    (l.set i a).getD i d = a := by
  simp [List.getD_eq_getElem?_getD, List.getElem?_set_self hi]

/-- C5, amended: blindBet performs no stack check of its own, but the
placeBet calls inside it do; when both blind seats are in range and
distinct, neither blind player has folded, and each holds strictly more
chips than their blind (so the frozen all-in write is not reached),
blind posting succeeds: both contributions are applied, the pot is
assigned smallBlind plus bigBlind and the table bet becomes bigBlind.
The counterexample shows the unrestricted claim is false when a blind
exceeds the stack. -/
theorem c5_blindBet_amended (game : GameState)
    (hbb : game.bigBlindPos < game.players.length)
    (hsb : game.smallBlindPos < game.players.length)
    (hne : game.smallBlindPos ≠ game.bigBlindPos)
    (hbf : (game.players.getD game.bigBlindPos default).hasFolded = false)
    (hsf : (game.players.getD game.smallBlindPos default).hasFolded = false)
    (hbc : game.bigBlind < (game.players.getD game.bigBlindPos default).chips)
    (hsc : game.smallBlind < (game.players.getD game.smallBlindPos default).chips) :
    ∃ g, blindBet game = .ok g ∧
      g.pot = game.smallBlind + game.bigBlind ∧
      g.currentBet = game.bigBlind ∧
      (g.players.getD game.bigBlindPos default).chips =
        (game.players.getD game.bigBlindPos default).chips - game.bigBlind ∧
      (g.players.getD game.bigBlindPos default).currentBet =
        (game.players.getD game.bigBlindPos default).currentBet + game.bigBlind ∧
      (g.players.getD game.smallBlindPos default).chips =
        (game.players.getD game.smallBlindPos default).chips - game.smallBlind ∧
      (g.players.getD game.smallBlindPos default).currentBet =
        (game.players.getD game.smallBlindPos default).currentBet + game.smallBlind := by
  have h1 := @placeBet_ok (game.players.getD game.bigBlindPos default)
    game.bigBlind hbf hbc
  have hgd : (game.players.set game.bigBlindPos
      { game.players.getD game.bigBlindPos default with
        chips := (game.players.getD game.bigBlindPos default).chips - game.bigBlind
        currentBet := (game.players.getD game.bigBlindPos default).currentBet + game.bigBlind
        frozen := true }).getD game.smallBlindPos default
      = game.players.getD game.smallBlindPos default :=
    getD_set_ne (Ne.symm hne) _ _
  have h2 := @placeBet_ok (game.players.getD game.smallBlindPos default)
    game.smallBlind hsf hsc
  have hblind : blindBet game = .ok { game with
      players := (game.players.set game.bigBlindPos
          { game.players.getD game.bigBlindPos default with
            chips := (game.players.getD game.bigBlindPos default).chips - game.bigBlind
            currentBet := (game.players.getD game.bigBlindPos default).currentBet + game.bigBlind
            frozen := true }).set game.smallBlindPos
          { game.players.getD game.smallBlindPos default with
            chips := (game.players.getD game.smallBlindPos default).chips - game.smallBlind
            currentBet := (game.players.getD game.smallBlindPos default).currentBet + game.smallBlind
            frozen := true }
      pot := game.smallBlind + game.bigBlind
      currentBet := game.bigBlind } := by
    simp only [blindBet, h1, hgd, h2]
  refine ⟨_, hblind, rfl, rfl, ?_, ?_, ?_, ?_⟩
  · rw [getD_set_ne hne, getD_set_self (by simpa using hbb)]
  · rw [getD_set_ne hne, getD_set_self (by simpa using hbb)]
  · rw [getD_set_self (by simpa using hsb)]
  · rw [getD_set_self (by simpa using hsb)]

/-- Game for the C5 witness: both blind players comfortably cover their
blinds. -/
def gameC5ok : GameState :=
  ⟨[⟨0, 1000, 0, false, false, [], true⟩, ⟨1, 500, 0, false, false, [], true⟩],
   ⟨[], 0⟩, 0, 0, 1, 0, 10, 20⟩

/-- Witness for the amended C5 at a concrete two-player game. -/
theorem c5_blindBet_amended_witness :
    ∃ g, blindBet gameC5ok = .ok g ∧
      g.pot = gameC5ok.smallBlind + gameC5ok.bigBlind ∧
      g.currentBet = gameC5ok.bigBlind ∧
      (g.players.getD gameC5ok.bigBlindPos default).chips =
        (gameC5ok.players.getD gameC5ok.bigBlindPos default).chips - gameC5ok.bigBlind ∧
      (g.players.getD gameC5ok.bigBlindPos default).currentBet =
        (gameC5ok.players.getD gameC5ok.bigBlindPos default).currentBet + gameC5ok.bigBlind ∧
      (g.players.getD gameC5ok.smallBlindPos default).chips =
        (gameC5ok.players.getD gameC5ok.smallBlindPos default).chips - gameC5ok.smallBlind ∧
      (g.players.getD gameC5ok.smallBlindPos default).currentBet =
        (gameC5ok.players.getD gameC5ok.smallBlindPos default).currentBet + gameC5ok.smallBlind :=
  c5_blindBet_amended gameC5ok (by decide) (by decide) (by decide) (by decide)
    (by decide) (by decide) (by decide)

/-- Folded seat player of the C2 failing input. -/
def foldedSeat : Player := ⟨0, 1000, 0, true, false, [], true⟩

/-- Game of the C2 failing input: three seats, seat 0 folded earlier in
the phase, seats 1 and 2 still active; the pending set holds seat 1
after a re-raise reopened action. -/
def gameC2 : GameState :=
  ⟨[foldedSeat, ⟨1, 1000, 20, false, false, [], true⟩,
    ⟨2, 1000, 20, false, false, [], true⟩], ⟨[], 0⟩, 60, 20, 1, 0, 10, 20⟩

/-- C2: refuted on the code.  The skip test of bettingRound reads
player.folded and player.allIn, properties that do not exist on player
objects (they carry hasFolded and isInAllIn), so both reads are
undefined and the test never fires: with the loop at seat 0, whose
player has hasFolded = true, the iteration still requests an action from
that folded player (asked = some 0) and processes it, contradicting the
claim that folded seats are always skipped without being asked. -/
theorem c2_folded_seat_not_skipped :
    foldedSeat.hasFolded = true ∧
    bettingStep gameC2 {1} [1, 2] 0 .check =
      .ok ⟨gameC2, {1}, 1, some 0, false⟩ := by
  decide

/-- Setting an index to the value already there leaves the list
unchanged. -/
theorem set_getD {α : Type} : ∀ (l : List α) (i : Nat) (d : α), l.set i (l.getD i d) = l
  | [], _, _ => rfl
  | _ :: _, 0, _ => rfl
  | a :: t, i + 1, d => congrArg (a :: ·) (set_getD t i d)

/-- getD commutes with map when the fallback is mapped too. -/
theorem getD_map {α β : Type} (f : α → β) :
    ∀ (l : List α) (i : Nat) (d : α), (l.map f).getD i (f d) = f (l.getD i d)
  | [], _, _ => rfl
  | _ :: _, 0, _ => rfl
  | _ :: t, i + 1, d => getD_map f t i d

/-- With pairwise distinct ids, the id lookup of the re-add loop returns
the member itself. -/
theorem find?_id_of_nodup : ∀ {ps : List Player}, (ps.map Player.id).Nodup →
    ∀ {q : Player}, q ∈ ps → ps.find? (fun pl => pl.id == q.id) = some q := by
  intro ps
  induction ps with
  | nil => intro _ q hq; cases hq
  | cons h t ih =>
    intro hnd q hq
    rw [List.map_cons, List.nodup_cons] at hnd
    rcases List.mem_cons.mp hq with rfl | hq2
    · rw [List.find?_cons_of_pos _ (by simp)]
    · have hne : h.id ≠ q.id := by
        intro he
        exact hnd.1 (he ▸ List.mem_map.mpr ⟨q, hq2, rfl⟩)
      rw [List.find?_cons_of_neg _ (by simp [hne])]
      exact ih hnd.2 hq2

/-- One re-add step can only grow the pending set. -/
theorem reAddOne_sub {ps : List Player} {raiser : Nat} {s : Finset Nat} {pid : Nat}
    {s2 : Finset Nat} (h : reAddOne ps raiser s pid = .ok s2) : s ⊆ s2 := by
  rw [reAddOne] at h
  by_cases hp : (pid == raiser) = true
  · rw [if_pos hp] at h
    injection h with h2
    exact h2 ▸ Finset.Subset.refl s
  · rw [if_neg hp] at h
    cases hf : ps.find? (fun pl => pl.id == pid) with
    | none => rw [hf] at h; cases h
    | some pl =>
      rw [hf] at h
      injection h with h2
      by_cases hc : (!pl.hasFolded && !pl.isInAllIn) = true
      · rw [if_pos hc] at h2
        exact h2 ▸ Finset.subset_insert pid s
      · rw [if_neg hc] at h2
        exact h2 ▸ Finset.Subset.refl s

/-- A re-add step at a non-raiser whose lookup yields a non-folded,
non-all-in player inserts that id. -/
theorem reAddOne_adds {ps : List Player} {raiser : Nat} {s : Finset Nat} {pid : Nat}
    {pl : Player} (hpr : pid ≠ raiser) (hf : ps.find? (fun x => x.id == pid) = some pl)
    (hnf : pl.hasFolded = false) (hna : pl.isInAllIn = false) :
    reAddOne ps raiser s pid = .ok (insert pid s) := by
  rw [reAddOne, if_neg (by simp [hpr]), hf]
  simp [hnf, hna]

/-- The whole re-add loop can only grow the pending set. -/
theorem reAddAll_sub : ∀ {ids : List Nat} {ps : List Player} {raiser : Nat}
    {s t : Finset Nat}, reAddAll ps raiser ids s = .ok t → s ⊆ t := by
  intro ids
  induction ids with
  | nil =>
    intro ps raiser s t h
    rw [reAddAll] at h
    injection h with h2
    exact h2 ▸ Finset.Subset.refl s
  | cons a rest ih =>
    intro ps raiser s t h
    rw [reAddAll] at h
    cases h1 : reAddOne ps raiser s a with
    | error e => rw [h1] at h; cases h
    | ok s2 =>
      rw [h1] at h
      exact (reAddOne_sub h1).trans (ih h)

/-- Any snapshot id distinct from the raiser whose current player is not
folded and not all-in ends up in the pending set produced by a
successful re-add loop. -/
theorem reAddAll_mem : ∀ {ids : List Nat} {ps : List Player} {raiser : Nat}
    {s t : Finset Nat}, reAddAll ps raiser ids s = .ok t →
    ∀ {pid : Nat} {pl : Player}, pid ∈ ids → pid ≠ raiser →
    ps.find? (fun x => x.id == pid) = some pl →
    pl.hasFolded = false → pl.isInAllIn = false → pid ∈ t := by
  intro ids
  induction ids with
  | nil => intro ps raiser s t _ pid pl hmem; cases hmem
  | cons a rest ih =>
    intro ps raiser s t h pid pl hmem hpr hf hnf hna
    rw [reAddAll] at h
    rcases List.mem_cons.mp hmem with rfl | hmem2
    · rw [reAddOne_adds hpr hf hnf hna] at h
      exact reAddAll_sub h (Finset.mem_insert_self pid s)
    · cases h1 : reAddOne ps raiser s a with
      | error e => rw [h1] at h; cases h
      | ok s2 =>
        rw [h1] at h
        exact ih h hmem2 hpr hf hnf hna

/-- placeBet never changes the player id. -/
theorem placeBet_id {p : Player} {amount : Int} {p2 : Player}
    (h : placeBet p amount = .ok p2) : p2.id = p.id := by
  rw [placeBet] at h
  split_ifs at h <;> cases h <;> rfl

/-- Unfolding of bettingStep: the skip condition reads the nonexistent
properties and is therefore definitionally false, so every iteration
proceeds to request and process an action. -/
theorem bettingStep_eq (game : GameState) (toAct : Finset Nat) (activeIds : List Nat)
    (currentIdx : Nat) (action : ActionT) :
    bettingStep game toAct activeIds currentIdx action =
      match processAction game (game.players.getD currentIdx default) action currentIdx with
      | .error e => .error e
      | .ok g1 =>
        match (if action.isRaise
               then reAddAll g1.players (game.players.getD currentIdx default).id activeIds
                      (toAct.erase (game.players.getD currentIdx default).id)
               else .ok (toAct.erase (game.players.getD currentIdx default).id)) with
        | .error e => .error (e, g1)
        | .ok t2 => .ok ⟨g1, t2, (currentIdx + 1) % game.players.length,
                         some (game.players.getD currentIdx default).id,
                         decide ((getActivePlayers g1.players).length ≤ 1)⟩ := rfl

/-- Shape of a successful raise processing: the acting player is
replaced by the raise result, the pot grows by the target minus the
stale contribution, and the table bet becomes the target. -/
theorem processAction_raise_ok {game : GameState} {player : Player} {amt : Int}
    {idx : Nat} {g1 : GameState}
    (h : processAction game player (.raise amt) idx = .ok g1) :
    ∃ p2, raise player amt = .ok p2 ∧
      g1 = { game with
             players := game.players.set idx p2
             pot := game.pot + (amt - player.currentBet)
             currentBet := amt } := by
  rw [processAction] at h
  cases hr : raise player amt with
  | error e => rw [hr] at h; cases h
  | ok p2 =>
    rw [hr] at h
    injection h with h2
    exact ⟨p2, rfl, h2.symm⟩

/-- C1: two parts.  First, for every successfully processed raise in a
loop iteration (with the seat index in range, pairwise distinct player
ids, and the phase-start snapshot covering every currently non-folded
player, the loop invariant of bettingRound since players only fold
during a phase): the table bet of the resulting state is the raise
target, and every player of the resulting state that is neither folded
nor all-in, other than the raiser, has their id in the resulting
pending-action set.  Second, a successfully processed non-raise action
never grows the pending set. -/
theorem c1_raise_reopens_nonraise_shrinks :
    (∀ (game : GameState) (toAct : Finset Nat) (activeIds : List Nat)
       (currentIdx : Nat) (amt : Int) (out : StepOut),
       currentIdx < game.players.length →
       (game.players.map Player.id).Nodup →
       (∀ q ∈ game.players, q.hasFolded = false → q.id ∈ activeIds) →
       bettingStep game toAct activeIds currentIdx (.raise amt) = .ok out →
       out.state.currentBet = amt ∧
       (∀ q ∈ out.state.players, q.hasFolded = false → q.isInAllIn = false →
         q.id ≠ (game.players.getD currentIdx default).id → q.id ∈ out.toAct)) ∧
    (∀ (game : GameState) (toAct : Finset Nat) (activeIds : List Nat)
       (currentIdx : Nat) (action : ActionT) (out : StepOut),
       action.isRaise = false →
       bettingStep game toAct activeIds currentIdx action = .ok out →
       out.toAct ⊆ toAct) := by
  constructor
  · intro game toAct activeIds currentIdx amt out hidx hnd hsnap hstep
    rw [bettingStep_eq] at hstep
    cases hpa : processAction game (game.players.getD currentIdx default) (.raise amt)
        currentIdx with
    | error e => rw [hpa] at hstep; cases hstep
    | ok g1 =>
      rw [hpa] at hstep
      simp only [ActionT.isRaise, if_true] at hstep
      cases hra : reAddAll g1.players (game.players.getD currentIdx default).id activeIds
          (toAct.erase (game.players.getD currentIdx default).id) with
      | error e => rw [hra] at hstep; cases hstep
      | ok t2 =>
        rw [hra] at hstep
        injection hstep with h2
        subst h2
        obtain ⟨p2, hr, hg1⟩ := processAction_raise_ok hpa
        have hid2 : p2.id = (game.players.getD currentIdx default).id :=
          placeBet_id hr
        constructor
        · rw [hg1]
        · intro q hq hqf hqa hqid
          rw [hg1] at hq
          have hq2 : q ∈ game.players := by
            rcases List.mem_or_eq_of_mem_set hq with hq3 | hq3
            · exact hq3
            · exact absurd (hq3 ▸ hid2) hqid
          have hmemid : q.id ∈ activeIds := hsnap q hq2 hqf
          have hmapeq : g1.players.map Player.id = game.players.map Player.id := by
            rw [hg1]
            show (game.players.set currentIdx p2).map Player.id = _
            rw [List.map_set, hid2]
            have := getD_map Player.id game.players currentIdx default
            rw [← this, set_getD]
          have hnd2 : (g1.players.map Player.id).Nodup := hmapeq ▸ hnd
          have hqg1 : q ∈ g1.players := hg1 ▸ hq
          have hfind := find?_id_of_nodup hnd2 hqg1
          exact reAddAll_mem hra hmemid hqid hfind hqf hqa
  · intro game toAct activeIds currentIdx action out hnr hstep
    rw [bettingStep_eq] at hstep
    cases hpa : processAction game (game.players.getD currentIdx default) action
        currentIdx with
    | error e => rw [hpa] at hstep; cases hstep
    | ok g1 =>
      rw [hpa, hnr] at hstep
      simp only [if_false] at hstep
      injection hstep with h2
      subst h2
      exact Finset.erase_subset _ toAct

/-- Three-seat game for the C1 witness, table bet 20, seat 0 about to
raise to 100. -/
def gameC1 : GameState :=
  ⟨[⟨0, 1000, 0, false, false, [], true⟩, ⟨1, 1000, 20, false, false, [], true⟩,
    ⟨2, 1000, 20, false, false, [], true⟩], ⟨[], 0⟩, 60, 20, 1, 0, 10, 20⟩

/-- State after the raise of seat 0 in the C1 witness. -/
def gameC1out : GameState :=
  ⟨[⟨0, 900, 100, false, false, [], true⟩, ⟨1, 1000, 20, false, false, [], true⟩,
    ⟨2, 1000, 20, false, false, [], true⟩], ⟨[], 0⟩, 160, 100, 1, 0, 10, 20⟩

/-- Loop outcome of the raise iteration in the C1 witness. -/
def outC1 : StepOut := ⟨gameC1out, {1, 2}, 1, some 0, false⟩

/-- Loop outcome of a check iteration at seat 1 in the C1 witness. -/
def outC1check : StepOut := ⟨gameC1, {2}, 2, some 1, false⟩

/-- Witness for C1: at the concrete raise of seat 0 to 100 the updated
table bet is 100 and both other active seats are in the pending set;
a concrete check at seat 1 only shrinks the pending set. -/
theorem c1_raise_reopens_nonraise_shrinks_witness :
    (outC1.state.currentBet = 100 ∧
      (∀ q ∈ outC1.state.players, q.hasFolded = false → q.isInAllIn = false →
        q.id ≠ (gameC1.players.getD 0 default).id → q.id ∈ outC1.toAct)) ∧
    outC1check.toAct ⊆ ({1, 2} : Finset Nat) :=
  ⟨c1_raise_reopens_nonraise_shrinks.1 gameC1 {1, 2} [0, 1, 2] 0 100 outC1
      (by decide) (by decide) (by decide) (by decide),
   c1_raise_reopens_nonraise_shrinks.2 gameC1 {1, 2} [0, 1, 2] 1 .check outC1check
      rfl (by decide)⟩

/-- One dealing pass over the players: with the deck invariant and
enough cards, every player in order receives the one-element dealtCards
array of their deal, and the deck loses one card per player. -/
theorem dealPass_spec : ∀ (ps : List Player) (d : Deck),
    d.remaining = d.cards.length → ps.length ≤ d.cards.length →
    ∃ ps2, dealPass ps d =
        .ok (ps2, ⟨d.cards.drop ps.length, d.cards.length - ps.length⟩) ∧
      ps2.length = ps.length ∧
      ∀ i, i < ps.length →
        ps2.getD i default = giveCard [d.cards.getD i default] (ps.getD i default) := by
  intro ps
  induction ps with
  | nil =>
    intro d hwf _
    refine ⟨[], ?_, rfl, by intro i hi; cases hi⟩
    show Except.ok ([], d) = _
    cases d with
    | mk cs rem =>
      simp only [List.drop_zero, List.length_nil, Nat.sub_zero]
      simp at hwf
      rw [hwf]
  | cons p rest ih =>
    intro d hwf hlen
    cases d with
    | mk cs rem =>
      cases cs with
      | nil => simp at hlen
      | cons c0 ct =>
        simp only [List.length_cons] at hlen hwf
        have h1 : dealCards ⟨c0 :: ct, rem⟩ 1 = .ok ([c0], ⟨ct, ct.length⟩) := by
          rw [dealCards, if_neg (by show ¬ (1 > rem); omega)]
          rfl
        obtain ⟨ps2, hdp, hlen2, hidx⟩ :=
          ih ⟨ct, ct.length⟩ rfl (by show rest.length ≤ ct.length; omega)
        refine ⟨giveCard [c0] p :: ps2, ?_, by simp [hlen2], ?_⟩
        · simp only [dealPass, h1, hdp, List.length_cons, List.drop_succ_cons,
            Nat.succ_sub_succ]
        · intro i hi
          cases i with
          | zero => rfl
          | succ j =>
            simp only [List.length_cons] at hi
            exact hidx j (by omega)

/-- C8: on a game whose deck satisfies the invariant and holds at least
two cards per player, and whose players start with empty hands,
dealPlayers succeeds and leaves every player with a hand of exactly two
elements, each element being the one-element dealtCards array of the
corresponding one-card deal (pass one deals card i to player i, pass two
deals card n + i), not a card object: giveCard appends its first
argument, and dealPlayers passes it the dealtCards array. -/
theorem c8_dealPlayers_nested_hands (game : GameState)
    (hwf : game.deck.remaining = game.deck.cards.length)
    (hlen : 2 * game.players.length ≤ game.deck.cards.length)
    (hempty : ∀ p ∈ game.players, p.hand = []) :
    ∃ g2, dealPlayers game = .ok g2 ∧
      g2.players.length = game.players.length ∧
      ∀ i, i < game.players.length →
        (g2.players.getD i default).hand =
          [[game.deck.cards.getD i default],
           [game.deck.cards.getD (game.players.length + i) default]] ∧
        (g2.players.getD i default).hand.length = 2 := by
  obtain ⟨ps1, hdp1, hlen1, hidx1⟩ :=
    dealPass_spec game.players game.deck hwf (by omega)
  have hlen1' : ps1.length ≤ (game.deck.cards.drop game.players.length).length := by
    rw [hlen1, List.length_drop]
    omega
  obtain ⟨ps2, hdp2, hlen2, hidx2⟩ :=
    dealPass_spec ps1 ⟨game.deck.cards.drop game.players.length,
      game.deck.cards.length - game.players.length⟩ (by simp) hlen1'
  refine ⟨{ game with
            players := ps2
            deck := ⟨(game.deck.cards.drop game.players.length).drop ps1.length,
                     (game.deck.cards.drop game.players.length).length - ps1.length⟩ },
          ?_, ?_, ?_⟩
  · simp only [dealPlayers, hdp1, hdp2]
  · dsimp only
    rw [hlen2, hlen1]
  · intro i hi
    dsimp only
    have hdrop : (game.deck.cards.drop game.players.length).getD i default =
        game.deck.cards.getD (game.players.length + i) default := by
      simp [List.getD_eq_getElem?_getD, List.getElem?_drop]
    have hmem : game.players.getD i default ∈ game.players := by
      rw [List.getD_eq_getElem?_getD, List.getElem?_eq_getElem hi]
      exact List.getElem_mem hi
    have hh0 : (game.players.getD i default).hand = [] := hempty _ hmem
    have h1 := hidx1 i hi
    have h2 := hidx2 i (by rw [hlen1]; exact hi)
    dsimp only at h2
    rw [h2, h1, hdrop]
    simp only [giveCard]
    rw [hh0]
    constructor
    · rfl
    · rfl

/-- Two-player game with a four-card deck for the C8 witness. -/
def gameC8 : GameState :=
  ⟨[⟨0, 1000, 0, false, false, [], true⟩, ⟨1, 1000, 0, false, false, [], true⟩],
   ⟨[⟨0, 0⟩, ⟨1, 1⟩, ⟨2, 2⟩, ⟨3, 3⟩], 4⟩, 0, 0, 1, 0, 10, 20⟩

/-- Witness for C8 at the concrete two-player game. -/
theorem c8_dealPlayers_nested_hands_witness :
    ∃ g2, dealPlayers gameC8 = .ok g2 ∧
      g2.players.length = gameC8.players.length ∧
      ∀ i, i < gameC8.players.length →
        (g2.players.getD i default).hand =
          [[gameC8.deck.cards.getD i default],
           [gameC8.deck.cards.getD (gameC8.players.length + i) default]] ∧
        (g2.players.getD i default).hand.length = 2 :=
  c8_dealPlayers_nested_hands gameC8 rfl (by decide) (by decide)

/-! Claim C10: the frame property of bestRank.  The source mutates arrays
in place (the sorts inside isStraight and compareWithSameRank), so the
claim that the two input arrays are untouched is about aliasing.  Arrays
are modelled here by an explicit store: a list of card arrays indexed by
allocation order; allocation appends at the end, and the in-place sorts
are store updates at an index.  bestRank is re-embedded against this
store, mirroring which array object every JavaScript step allocates,
reads or sorts. -/

/-- Read of an array from the store. -/
def getA (st : List (List Card)) (i : Nat) : List Card := st.getD i []

/-- In-place update of an array in the store. -/
def setA (st : List (List Card)) (i : Nat) (l : List Card) : List (List Card) :=
  st.set i l

/-- Singleton branch of getAllCombinations: cards.map(card => [card])
allocates a fresh one-element array per card. -/
def gacSingles (st : List (List Card)) (cards : List Card) :
    List (List Card) × List Nat :=
  cards.foldl (fun acc c => (acc.1 ++ [[c]], acc.2 ++ [acc.1.length])) (st, [])

/-- Concat loop of getAllCombinations: head.concat(tail[j]) allocates a
fresh array per tail combination, reading the head array and the tail
array from the store. -/
def gacConcats (st : List (List Card)) (h : Nat) (tailIds : List Nat) :
    List (List Card) × List Nat :=
  tailIds.foldl
    (fun acc j => (acc.1 ++ [getA acc.1 h ++ getA acc.1 j], acc.2 ++ [acc.1.length]))
    (st, [])

/-- Store embedding of getAllCombinations (HandEvaluator.js lines
279-303).  The argument a is the array id of the candidate cards.  The
guard branch returns no combinations; the equal-length branch returns
the argument array itself (the one aliasing case); the singleton branch
allocates fresh one-card arrays; the general branch, per start index i,
allocates the head slice(i, i+1), allocates the suffix slice(i+1),
recurses on the suffix, and allocates one concat array per tail
combination. -/
def gacH : Nat → List (List Card) → Nat → List (List Card) × List Nat
  | 0, st, _ => (st, [])
  | k + 1, st, a =>
    let cards := getA st a
    if k + 1 > cards.length then (st, [])
    else if k + 1 == cards.length then (st, [a])
    else if k == 0 then gacSingles st cards
    else
      (List.range (cards.length - (k + 1) + 1)).foldl
        (fun acc i =>
          let stA := acc.1 ++ [(cards.drop i).take 1]
          let h := acc.1.length
          let t := stA.length
          let stB := stA ++ [cards.drop (i + 1)]
          let rec1 := gacH k stB t
          let conc := gacConcats rec1.1 h rec1.2
          (conc.1, acc.2 ++ conc.2))
        (st, [])

/-- Store embedding of getRank: the isStraight call sorts the array in
place (a store update at its id), and the rank is computed from the
sorted array as in the pure embedding. -/
def getRankH (st : List (List Card)) (c : Nat) : List (List Card) × Nat :=
  let sorted := sortAscV (getA st c)
  (setA st c sorted, getRankOfSorted sorted)

/-- Store embedding of compareWithSameRank: the decision is as in the
pure embedding (the rank-specific branches read the arrays before the
sorts and are order-independent; the final positional walk reads the
descending sorts), and both argument arrays are sorted descending in
place; the returned value is the id of the winning array. -/
def compareWithSameRankH (st : List (List Card)) (cNew cBest : Nat)
    (rank : Option Nat) : List (List Card) × Nat :=
  let choice := compareChoiceNew (getA st cNew) (getA st cBest) rank
  let st2 := setA st cNew (sortDescV (getA st cNew))
  let st3 := setA st2 cBest (sortDescV (getA st2 cBest))
  (st3, if choice then cNew else cBest)

/-- One reduce step of bestRank over the store: always evaluate getRank
of the current combination (sorting it in place), then keep or replace
the best accumulator, tie-breaking through compareWithSameRank. -/
def brStep (acc : List (List Card) × (Nat × Nat)) (c : Nat) :
    List (List Card) × (Nat × Nat) :=
  let gr := getRankH acc.1 c
  if acc.2.2 < gr.2 then (gr.1, (c, gr.2))
  else if acc.2.2 == gr.2 then
    let cw := compareWithSameRankH gr.1 c acc.2.1 (some gr.2)
    (cw.1, (cw.2, gr.2))
  else (gr.1, (acc.2.1, acc.2.2))

/-- Store embedding of bestRank (HandEvaluator.js lines 26-49): allocate
allCards as the spread copy of the two inputs, enumerate the five-card
combinations, allocate the empty initial best hand, and reduce with
brStep.  The result is the final store with the winning array id and
rank. -/
def bestRankH (st : List (List Card)) (pa ta : Nat) :
    List (List Card) × (Nat × Nat) :=
  let st1 := st ++ [getA st pa ++ getA st ta]
  let ac := st.length
  let g := gacH 5 st1 ac
  let st3 := g.1 ++ [([] : List Card)]
  let accInit := g.1.length
  g.2.foldl brStep (st3, (accInit, 0))

/-- Reading below the length of the prefix ignores an appended suffix. -/
theorem getA_append {st ext : List (List Card)} {j : Nat} (hj : j < st.length) :
    getA (st ++ ext) j = getA st j := by
  simp [getA, List.getD_eq_getElem?_getD, List.getElem?_append_left hj]

/-- Reading an index other than the one updated is unchanged. -/
theorem getA_set_ne {st : List (List Card)} {i j : Nat} (h : i ≠ j) (l : List Card) :
    getA (setA st i l) j = getA st j := by
  simp [getA, setA, List.getD_eq_getElem?_getD, List.getElem?_set_ne h]

/-- Invariant carrier for the allocation folds of the combination
enumerator: the store only grows by appending, and every produced id is
either inherited or at least the incoming store length. -/
theorem foldl_grow {α : Type}
    (f : (List (List Card) × List Nat) → α → (List (List Card) × List Nat))
    (hf : ∀ acc x, (∃ ext, (f acc x).1 = acc.1 ++ ext) ∧
          (∀ c ∈ (f acc x).2, c ∈ acc.2 ∨ acc.1.length ≤ c)) :
    ∀ (l : List α) (acc : List (List Card) × List Nat),
      (∃ ext, (l.foldl f acc).1 = acc.1 ++ ext) ∧
      (∀ c ∈ (l.foldl f acc).2, c ∈ acc.2 ∨ acc.1.length ≤ c) := by
  intro l
  induction l with
  | nil => intro acc; exact ⟨⟨[], by simp⟩, fun c hc => Or.inl hc⟩
  | cons x xs ih =>
    intro acc
    have h1 := hf acc x
    have h2 := ih (f acc x)
    obtain ⟨e1, he1⟩ := h1.1
    constructor
    · obtain ⟨e2, he2⟩ := h2.1
      exact ⟨e1 ++ e2, by rw [List.foldl_cons, he2, he1, List.append_assoc]⟩
    · intro c hc
      rw [List.foldl_cons] at hc
      rcases h2.2 c hc with hc2 | hc2
      · exact h1.2 c hc2
      · refine Or.inr (Nat.le_trans ?_ hc2)
        rw [he1, List.length_append]
        omega

/-- The singleton branch only appends and all its ids are fresh. -/
theorem gacSingles_ext (st : List (List Card)) (cards : List Card) :
    (∃ ext, (gacSingles st cards).1 = st ++ ext) ∧
    (∀ c ∈ (gacSingles st cards).2, st.length ≤ c) := by
  have h := foldl_grow (fun acc c => (acc.1 ++ [[c]], acc.2 ++ [acc.1.length]))
    (by
      intro acc x
      refine ⟨⟨[[x]], rfl⟩, ?_⟩
      intro c hc
      rcases List.mem_append.mp hc with hc2 | hc2
      · exact Or.inl hc2
      · simp at hc2
        omega) cards (st, [])
  refine ⟨h.1, ?_⟩
  intro c hc
  rcases h.2 c hc with hc2 | hc2
  · cases hc2
  · exact hc2

/-- The concat loop only appends and all its ids are fresh. -/
theorem gacConcats_ext (st : List (List Card)) (h : Nat) (tailIds : List Nat) :
    (∃ ext, (gacConcats st h tailIds).1 = st ++ ext) ∧
    (∀ c ∈ (gacConcats st h tailIds).2, st.length ≤ c) := by
  have h2 := foldl_grow
    (fun acc j => (acc.1 ++ [getA acc.1 h ++ getA acc.1 j], acc.2 ++ [acc.1.length]))
    (by
      intro acc x
      refine ⟨⟨[getA acc.1 h ++ getA acc.1 x], rfl⟩, ?_⟩
      intro c hc
      rcases List.mem_append.mp hc with hc2 | hc2
      · exact Or.inl hc2
      · simp at hc2
        omega) tailIds (st, [])
  refine ⟨h2.1, ?_⟩
  intro c hc
  rcases h2.2 c hc with hc2 | hc2
  · cases hc2
  · exact hc2

/-- The combination enumerator only appends to the store, and every
combination id is either the argument array or freshly allocated. -/
theorem gacH_ext : ∀ (k : Nat) (st : List (List Card)) (a : Nat),
    (∃ ext, (gacH k st a).1 = st ++ ext) ∧
    (∀ c ∈ (gacH k st a).2, c = a ∨ st.length ≤ c) := by
  intro k
  induction k with
  | zero =>
    intro st a
    exact ⟨⟨[], by simp [gacH]⟩, by simp [gacH]⟩
  | succ k ih =>
    intro st a
    rw [gacH]
    by_cases h1 : k + 1 > (getA st a).length
    · simp only [if_pos h1]
      exact ⟨⟨[], by simp⟩, by simp⟩
    · rw [if_neg h1]
      by_cases h2 : (k + 1 == (getA st a).length) = true
      · rw [if_pos h2]
        refine ⟨⟨[], by simp⟩, ?_⟩
        intro c hc
        simp at hc
        exact Or.inl hc
      · rw [if_neg h2]
        by_cases h3 : (k == 0) = true
        · rw [if_pos h3]
          have h4 := gacSingles_ext st (getA st a)
          exact ⟨h4.1, fun c hc => Or.inr (h4.2 c hc)⟩
        · rw [if_neg h3]
          have h5 := foldl_grow
            (fun acc i =>
              let stA := acc.1 ++ [((getA st a).drop i).take 1]
              let h := acc.1.length
              let t := stA.length
              let stB := stA ++ [(getA st a).drop (i + 1)]
              let rec1 := gacH k stB t
              let conc := gacConcats rec1.1 h rec1.2
              (conc.1, acc.2 ++ conc.2))
            (by
              intro acc i
              obtain ⟨e1, he1⟩ := (ih (acc.1 ++ [((getA st a).drop i).take 1] ++
                [(getA st a).drop (i + 1)]) (acc.1 ++ [((getA st a).drop i).take 1]).length).1
              have hcc := gacConcats_ext
                ((gacH k (acc.1 ++ [((getA st a).drop i).take 1] ++
                  [(getA st a).drop (i + 1)]) (acc.1 ++ [((getA st a).drop i).take 1]).length).1)
                acc.1.length
                ((gacH k (acc.1 ++ [((getA st a).drop i).take 1] ++
                  [(getA st a).drop (i + 1)]) (acc.1 ++ [((getA st a).drop i).take 1]).length).2)
              obtain ⟨e2, he2⟩ := hcc.1
              constructor
              · refine ⟨[((getA st a).drop i).take 1] ++ [(getA st a).drop (i + 1)] ++ e1 ++ e2, ?_⟩
                show (gacConcats _ _ _).1 = _
                rw [he2, he1]
                simp [List.append_assoc]
              · intro c hc
                show c ∈ acc.2 ∨ acc.1.length ≤ c
                rcases List.mem_append.mp hc with hc2 | hc2
                · exact Or.inl hc2
                · refine Or.inr ?_
                  have h6 := hcc.2 c hc2
                  have h7 : acc.1.length ≤
                      ((gacH k (acc.1 ++ [((getA st a).drop i).take 1] ++
                        [(getA st a).drop (i + 1)])
                        (acc.1 ++ [((getA st a).drop i).take 1]).length).1).length := by
                    rw [he1]
                    simp
                  omega)
            (List.range ((getA st a).length - (k + 1) + 1)) (st, [])
          refine ⟨h5.1, ?_⟩
          intro c hc
          rcases h5.2 c hc with hc2 | hc2
          · cases hc2
          · exact Or.inr hc2

/-- The store component of getRankH is exactly the in-place sort at the
given id. -/
theorem getRankH_fst (st : List (List Card)) (c : Nat) :
    (getRankH st c).1 = setA st c (sortAscV (getA st c)) := rfl

/-- The store component of compareWithSameRankH is the two in-place
descending sorts, and its result id is one of the two arguments. -/
theorem compareWithSameRankH_snd (st : List (List Card)) (cNew cBest : Nat)
    (rank : Option Nat) :
    (compareWithSameRankH st cNew cBest rank).2 =
      if compareChoiceNew (getA st cNew) (getA st cBest) rank then cNew else cBest := rfl

/-- One reduce step of bestRank preserves every store entry below N when
the combination id and the accumulator id are at least N, and keeps the
accumulator id at least N. -/
theorem brStep_inv {N : Nat} {b : List (List Card)}
    {acc : List (List Card) × (Nat × Nat)} {c : Nat} (hc : N ≤ c)
    (hpres : ∀ j, j < N → getA acc.1 j = getA b j) (hid : N ≤ acc.2.1) :
    (∀ j, j < N → getA (brStep acc c).1 j = getA b j) ∧ N ≤ (brStep acc c).2.1 := by
  have hgr : ∀ j, j < N → getA (getRankH acc.1 c).1 j = getA b j := by
    intro j hj
    rw [getRankH_fst, getA_set_ne (by omega : c ≠ j)]
    exact hpres j hj
  have hcw : ∀ j, j < N →
      getA (compareWithSameRankH (getRankH acc.1 c).1 c acc.2.1
        (some (getRankH acc.1 c).2)).1 j = getA b j := by
    intro j hj
    show getA (setA (setA _ c _) acc.2.1 _) j = _
    rw [getA_set_ne (by omega : acc.2.1 ≠ j), getA_set_ne (by omega : c ≠ j)]
    exact hgr j hj
  have hcwid : N ≤ (compareWithSameRankH (getRankH acc.1 c).1 c acc.2.1
      (some (getRankH acc.1 c).2)).2 := by
    rw [compareWithSameRankH_snd]
    by_cases hch : compareChoiceNew (getA (getRankH acc.1 c).1 c)
        (getA (getRankH acc.1 c).1 acc.2.1) (some (getRankH acc.1 c).2) = true
    · rw [if_pos hch]; exact hc
    · rw [if_neg hch]; exact hid
  simp only [brStep]
  by_cases hlt : acc.2.2 < (getRankH acc.1 c).2
  · rw [if_pos hlt]
    exact ⟨hgr, hc⟩
  · rw [if_neg hlt]
    by_cases heq : (acc.2.2 == (getRankH acc.1 c).2) = true
    · rw [if_pos heq]
      exact ⟨hcw, hcwid⟩
    · rw [if_neg heq]
      exact ⟨hgr, hid⟩

/-- The bestRank reduce preserves every store entry below N as long as
all combination ids are at least N. -/
theorem brFold_inv {N : Nat} {b : List (List Card)} :
    ∀ (combos : List Nat) (acc : List (List Card) × (Nat × Nat)),
      (∀ c ∈ combos, N ≤ c) →
      (∀ j, j < N → getA acc.1 j = getA b j) → N ≤ acc.2.1 →
      (∀ j, j < N → getA (combos.foldl brStep acc).1 j = getA b j) := by
  intro combos
  induction combos with
  | nil => intro acc _ hpres _; exact hpres
  | cons c rest ih =>
    intro acc hcs hpres hid
    rw [List.foldl_cons]
    have h1 := brStep_inv (b := b) (hcs c (List.mem_cons_self c rest)) hpres hid
    exact ih _ (fun x hx => hcs x (List.mem_cons_of_mem c hx)) h1.1 h1.2

/-- Every store entry below the incoming store length survives
bestRankH: all mutated ids (the combinations and the accumulator) are at
or above it. -/
theorem bestRankH_preserves (st : List (List Card)) (pa ta : Nat) :
    ∀ j, j < st.length → getA (bestRankH st pa ta).1 j = getA st j := by
  intro j hj
  have hg := gacH_ext 5 (st ++ [getA st pa ++ getA st ta]) st.length
  obtain ⟨ext, hext⟩ := hg.1
  have hpres0 : ∀ i, i < st.length →
      getA ((gacH 5 (st ++ [getA st pa ++ getA st ta]) st.length).1 ++ [([] : List Card)]) i
        = getA st i := by
    intro i hi
    rw [hext, List.append_assoc, List.append_assoc, getA_append hi]
  have hcs : ∀ c ∈ (gacH 5 (st ++ [getA st pa ++ getA st ta]) st.length).2,
      st.length ≤ c := by
    intro c hcm
    rcases hg.2 c hcm with hc2 | hc2
    · omega
    · rw [List.length_append] at hc2
      omega
  have hacc : st.length ≤
      ((gacH 5 (st ++ [getA st pa ++ getA st ta]) st.length).1).length := by
    rw [hext]
    simp
  exact brFold_inv (b := st)
    (gacH 5 (st ++ [getA st pa ++ getA st ta]) st.length).2
    ((gacH 5 (st ++ [getA st pa ++ getA st ta]) st.length).1 ++ [[]],
      (((gacH 5 (st ++ [getA st pa ++ getA st ta]) st.length).1).length, 0))
    hcs hpres0 hacc j hj

/-- C10: bestRank has no effect on its two input arrays.  In the store
model, with the hole-card array and the community-card array allocated
below the current store length and jointly holding five to seven cards,
the store after bestRankH holds both arrays unchanged (same cards, same
order): the spread copy, every combination produced by the enumerator
and the initial best hand are all fresh allocations (or the fresh copy
itself), and the in-place sorts of getRank and compareWithSameRank only
ever hit those fresh ids.  Card values themselves are immutable in the
model, as createCard freezes them in the source. -/
theorem c10_bestRank_no_side_effects (st : List (List Card)) (pa ta : Nat)
    (hpa : pa < st.length) (hta : ta < st.length)
    (_h5 : 5 ≤ (getA st pa).length + (getA st ta).length)
    (_h7 : (getA st pa).length + (getA st ta).length ≤ 7) :
    getA (bestRankH st pa ta).1 pa = getA st pa ∧
    getA (bestRankH st pa ta).1 ta = getA st ta :=
  ⟨bestRankH_preserves st pa ta pa hpa, bestRankH_preserves st pa ta ta hta⟩

/-- Store for the C10 witness: array 0 holds two hole cards, array 1
holds five community cards. -/
def storeC10 : List (List Card) :=
  [[⟨12, 0⟩, ⟨11, 1⟩], [⟨0, 2⟩, ⟨5, 3⟩, ⟨7, 0⟩, ⟨9, 1⟩, ⟨2, 2⟩]]

/-- Witness for C10 at the concrete seven-card input. -/
theorem c10_bestRank_no_side_effects_witness :
    getA (bestRankH storeC10 0 1).1 0 = getA storeC10 0 ∧
    getA (bestRankH storeC10 0 1).1 1 = getA storeC10 1 :=
  c10_bestRank_no_side_effects storeC10 0 1 (by decide) (by decide) (by decide) (by decide)
